import Mathlib

/-!
# Verification of the Q-learning chess bot (`src/chessbot.py`)

Shallow embedding of the learning core of `chessbot.py`:

* Python dicts are modelled as association lists in insertion order
  (`Dict α`), since Python dicts preserve insertion order and `max` over a
  dict iterates keys in that order.
* Python floats are modelled as exact rationals (`ℚ`); the claims under
  verification are about the algebraic update formulas, not rounding.
* The external `pickle` module and the brain file are modelled by `Blob`
  and `FileSys`: a persisted blob either deserializes back to the table it
  was written from (pickle is a faithful codec for these dict types) or is
  corrupt/unreadable and makes `pickle.load` raise.
* Exceptions (`KeyError` from `q_table[state][move_uci]`, `pickle` errors,
  write failures) are modelled with `Except Unit`.
* The exploration coin `random.random() < self.epsilon` is the boolean
  parameter `explore`, and `random.choice(legal_moves)` picks the element
  at index `randIdx % legal_moves.length`.
-/

set_option maxHeartbeats 1000000

namespace ChessBot

/-- A Python dict with string keys, as an association list in insertion order
(no duplicate keys arise from the operations below). -/
abbrev Dict (α : Type) := List (String × α)

/-- A row of the value table: Python dict from action identifier (uci string)
to its learned value. -/
abbrev Row := Dict ℚ

/-- The value table `self.q_table`: dict from position fingerprint (FEN
string) to its row. -/
abbrev QTable := Dict Row

/-- Python dict assignment `d[k] = v`: overwrite in place when the key is
present (keeping its position), otherwise append at the end. -/
def dictInsert {α : Type} (k : String) (v : α) : Dict α → Dict α
  | [] => [(k, v)]
  | (k1, v1) :: rest => if k1 = k then (k, v) :: rest else (k1, v1) :: dictInsert k v rest

/-- Python dict lookup: `some` of the stored value, `none` when absent
(reading an absent key raises `KeyError` in Python). -/
def dictGet {α : Type} (k : String) : Dict α → Option α
  | [] => none
  | (k1, v1) :: rest => if k1 = k then some v1 else dictGet k rest

/-- Python membership test `k in d`. -/
def dictContains {α : Type} (k : String) (d : Dict α) : Bool :=
  (dictGet k d).isSome

/-- `self.learning_rate = 0.5`. -/
def learning_rate : ℚ := 1 / 2

/-- `self.discount_factor = 0.9`. -/
def discount_factor : ℚ := 9 / 10

/-- `self.epsilon = 0.2`. -/
def epsilon : ℚ := 1 / 5

/-- The dict comprehension `{move.uci(): 0.0 for move in legal_moves}`,
built up in iteration order. -/
def buildRow (legal : List String) : Row :=
  legal.foldl (fun d m => dictInsert m 0 d) []

/-- The running-best loop of Python `max(iterable, key=...)`: the current
best is replaced only by a strictly greater value, so the first maximum in
iteration order wins. -/
def pyFold (b : String × ℚ) (l : List (String × ℚ)) : String × ℚ :=
  l.foldl (fun best p => if p.2 > best.2 then p else best) b

/-- `max(state_moves, key=state_moves.get)`: the key of the first entry with
maximal value, in insertion order; `none` models the `ValueError` raised on
an empty dict. -/
def pythonMax (row : Row) : Option String :=
  match row with
  | [] => none
  | p :: rest => some (pyFold p rest).1

/-- `ChessAI.choose_move`: initialize the row for the current fingerprint if
absent, then either explore (uniform choice from the legal list) or exploit
(`pythonMax` over the row). Returns the chosen action (or an error for the
exceptions Python would raise) together with the updated table; the table
update happens before the exploration coin is consulted, as in the source. -/
def chooseMove (q : QTable) (fen : String) (legal : List String)
    (explore : Bool) (randIdx : Nat) : Except Unit String × QTable :=
  let q1 := if dictContains fen q then q else dictInsert fen (buildRow legal) q
  let res : Except Unit String :=
    if explore then
      match legal with
      | [] => Except.error ()
      | m :: ms =>
          Except.ok ((m :: ms).get ⟨randIdx % (m :: ms).length, Nat.mod_lt _ (Nat.succ_pos ms.length)⟩)
    else
      match pythonMax ((dictGet fen q1).getD []) with
      | none => Except.error ()
      | some a => Except.ok a
  (res, q1)

/-- The loop body of `ChessAI.learn`, iterating over the (already reversed)
history with the running reward. When the state is absent a row `{move: 0.0}`
is created; then `q_table[state][move_uci]` is read — a `KeyError`
(`Except.error ()`) when the move is missing from the row — and the value is
updated in place, after which the running reward is discounted. -/
def learnAux (lr df : ℚ) : QTable → ℚ → List (String × String × ℚ) → Except Unit QTable
  | q, _, [] => Except.ok q
  | q, reward, (s, m, r) :: rest =>
    let q1 := if dictContains s q then q else dictInsert s [(m, 0)] q
    let row := (dictGet s q1).getD []
    match dictGet m row with
    | none => Except.error ()
    | some old =>
        learnAux lr df
          (dictInsert s (dictInsert m (old + lr * ((r + reward) - old)) row) q1)
          (reward * df) rest

/-- `ChessAI.learn`: replay the history in reverse (`reversed(history)`) with
the terminal reward as the initial running reward. -/
def learn (lr df : ℚ) (q : QTable) (history : List (String × String × ℚ))
    (finalReward : ℚ) : Except Unit QTable :=
  learnAux lr df q finalReward history.reverse

/-- Terminal reward computation in `play_game`: `1.0` for result `"0-1"`
(black, the learning side, wins), `-1.0` for `"1-0"`, else the initial `0`. -/
def finalReward (result : String) : ℚ :=
  if result = "0-1" then 1 else if result = "1-0" then -1 else 0

/-- The value stored for a (fingerprint, action) pair in the table produced by
a `learn` run: `none` when the run raised, or when the pair is absent. -/
def tableValue (e : Except Unit QTable) (s a : String) : Option ℚ :=
  match e with
  | Except.error _ => none
  | Except.ok t => Option.bind (dictGet s t) (fun row => dictGet a row)

/-- Model of a persisted blob: either a valid pickle of a table, or a blob on
which deserialization fails (corrupt data, unreadable resource, version
mismatch). `pickle` is external library code, modelled as a faithful codec. -/
inductive Blob : Type where
  | table (t : QTable)
  | corrupt
deriving DecidableEq

/-- `pickle.dump(self.q_table, f)`: serialize the table. -/
def pickleDump (t : QTable) : Blob := Blob.table t

/-- `pickle.load(f)`: deserialize, raising (`Except.error`) on a corrupt blob. -/
def pickleLoad : Blob → Except Unit QTable
  | Blob.table t => Except.ok t
  | Blob.corrupt => Except.error ()

/-- The file system: named resources and their contents. -/
abbrev FileSys := Dict Blob

/-- `ChessAI.save_brain`: open `self.filename` for writing and pickle the
table into it. `writable` tells which names can be opened/written; there is
no exception handler in `save_brain`, so a write failure propagates to the
caller unchanged. -/
def save_brain (writable : String → Bool) (fs : FileSys) (filename : String)
    (q : QTable) : Except Unit FileSys :=
  if writable filename then Except.ok (dictInsert filename (pickleDump q) fs)
  else Except.error ()

/-- `ChessAI.load_brain`: when the file exists, try to unpickle it into
`q_table`; the bare `except` replaces the table with `{}` on any failure, so
the result is always a table and no exception escapes. When the file does
not exist, `q_table` is left as it was. -/
def load_brain (fs : FileSys) (filename : String) (q : QTable) : QTable :=
  match dictGet filename fs with
  | none => q
  | some b =>
    match pickleLoad b with
    | Except.ok t => t
    | Except.error _ => []

/-- Value tables reachable from the empty table by `choose_move`
initializations and successful `learn` updates with the program's constants. -/
inductive Reachable : QTable → Prop where
  | init : Reachable []
  | chooseStep (q : QTable) (fen : String) (legal : List String)
      (explore : Bool) (randIdx : Nat) : Reachable q →
      Reachable (chooseMove q fen legal explore randIdx).2
  | learnStep (q q1 : QTable) (h : List (String × String × ℚ)) (R : ℚ) :
      Reachable q → learn learning_rate discount_factor q h R = Except.ok q1 →
      Reachable q1

/-! ## Association-list lemmas (Python dict semantics) -/

theorem dictGet_insert_self {α : Type} (k : String) (v : α) (d : Dict α) :
    dictGet k (dictInsert k v d) = some v := by
  induction d with
  | nil => simp [dictInsert, dictGet]
  | cons p rest ih =>
    obtain ⟨k1, v1⟩ := p
    by_cases h : k1 = k
    · simp [dictInsert, dictGet, h]
    · simp [dictInsert, dictGet, h, ih]

theorem dictGet_insert_ne {α : Type} (k a : String) (h : k ≠ a) (v : α) (d : Dict α) :
    dictGet a (dictInsert k v d) = dictGet a d := by
  induction d with
  | nil => simp [dictInsert, dictGet, h]
  | cons p rest ih =>
    obtain ⟨k1, v1⟩ := p
    by_cases h1 : k1 = k
    · subst h1
      simp [dictInsert, dictGet, h]
    · have hak : a ≠ k := fun e => h e.symm
      by_cases h2 : k1 = a <;> simp [dictInsert, dictGet, h1, h2, hak, ih]

theorem dictInsert_absent {α : Type} (k : String) (v : α) (d : Dict α)
    (h : dictGet k d = none) : dictInsert k v d = d ++ [(k, v)] := by
  induction d with
  | nil => rfl
  | cons p rest ih =>
    obtain ⟨k1, v1⟩ := p
    by_cases h1 : k1 = k
    · simp [dictGet, h1] at h
    · simp [dictGet, h1] at h
      simp [dictInsert, h1, ih h]

theorem dictInsert_insert_same {α : Type} (k : String) (v1 v2 : α) (d : Dict α) :
    dictInsert k v1 (dictInsert k v2 d) = dictInsert k v1 d := by
  induction d with
  | nil => simp [dictInsert]
  | cons p rest ih =>
    obtain ⟨k1, w⟩ := p
    by_cases h : k1 = k
    · simp [dictInsert, h]
    · simp [dictInsert, h, ih]

theorem dictGet_foldl_zero (legal : List String) :
    ∀ (d : Row) (a : String),
      dictGet a (legal.foldl (fun acc m => dictInsert m 0 acc) d) =
        if a ∈ legal then some 0 else dictGet a d := by
  induction legal with
  | nil => intro d a; simp
  | cons m ms ih =>
    intro d a
    rw [List.foldl_cons, ih]
    by_cases hm : a ∈ ms
    · simp [hm]
    · by_cases ha : m = a
      · subst ha
        simp [hm, dictGet_insert_self]
      · have : a ≠ m := fun e => ha e.symm
        simp [hm, this, dictGet_insert_ne m a ha]

theorem dictGet_buildRow (legal : List String) (a : String) :
    dictGet a (buildRow legal) = if a ∈ legal then some 0 else none := by
  have h := dictGet_foldl_zero legal [] a
  simpa [buildRow, dictGet] using h

/-! ## Stepping lemmas for the learn loop -/

theorem learnAux_nil (lr df : ℚ) (q : QTable) (reward : ℚ) :
    learnAux lr df q reward [] = Except.ok q := rfl

theorem learnAux_cons (lr df : ℚ) (q : QTable) (reward : ℚ) (s m : String)
    (r : ℚ) (rest : List (String × String × ℚ)) :
    learnAux lr df q reward ((s, m, r) :: rest) =
      (let q1 := if dictContains s q then q else dictInsert s [(m, 0)] q
       let row := (dictGet s q1).getD []
       match dictGet m row with
       | none => Except.error ()
       | some old =>
           learnAux lr df
             (dictInsert s (dictInsert m (old + lr * ((r + reward) - old)) row) q1)
             (reward * df) rest) := rfl

theorem learnAux_step_absent (lr df : ℚ) (q : QTable) (reward : ℚ) (s m : String)
    (r : ℚ) (rest : List (String × String × ℚ)) (hs : dictGet s q = none) :
    learnAux lr df q reward ((s, m, r) :: rest) =
      learnAux lr df (dictInsert s [(m, lr * (r + reward))] q) (reward * df) rest := by
  rw [learnAux_cons]
  have hc : dictContains s q = false := by simp [dictContains, hs]
  simp only [hc, Bool.false_eq_true, if_false, dictGet_insert_self, Option.getD_some]
  have hrow : dictGet m [(m, (0 : ℚ))] = some 0 := by simp [dictGet]
  rw [hrow]
  have hv : (0 : ℚ) + lr * ((r + reward) - 0) = lr * (r + reward) := by ring
  have hins : dictInsert m (lr * (r + reward)) [(m, (0 : ℚ))] = [(m, lr * (r + reward))] := by
    simp [dictInsert]
  show learnAux lr df
      (dictInsert s (dictInsert m ((0 : ℚ) + lr * ((r + reward) - 0)) [(m, (0 : ℚ))])
        (dictInsert s [(m, (0 : ℚ))] q)) (reward * df) rest =
    learnAux lr df (dictInsert s [(m, lr * (r + reward))] q) (reward * df) rest
  rw [hv, hins, dictInsert_insert_same]

theorem learnAux_step_present (lr df : ℚ) (q : QTable) (reward : ℚ) (s m : String)
    (r : ℚ) (rest : List (String × String × ℚ)) (row : Row) (old : ℚ)
    (hs : dictGet s q = some row) (hm : dictGet m row = some old) :
    learnAux lr df q reward ((s, m, r) :: rest) =
      learnAux lr df
        (dictInsert s (dictInsert m (old + lr * ((r + reward) - old)) row) q)
        (reward * df) rest := by
  rw [learnAux_cons]
  have hc : dictContains s q = true := by simp [dictContains, hs]
  simp only [hc, if_true, hs, Option.getD_some, hm]

theorem learnAux_step_missing (lr df : ℚ) (q : QTable) (reward : ℚ) (s m : String)
    (r : ℚ) (rest : List (String × String × ℚ)) (row : Row)
    (hs : dictGet s q = some row) (hm : dictGet m row = none) :
    learnAux lr df q reward ((s, m, r) :: rest) = Except.error () := by
  rw [learnAux_cons]
  have hc : dictContains s q = true := by simp [dictContains, hs]
  simp only [hc, if_true, hs, Option.getD_some, hm]

/-! ## The first-maximum property of Python max over a dict -/

theorem pyFold_spec (l : List (String × ℚ)) :
    ∀ b : String × ℚ,
      b.2 ≤ (pyFold b l).2 ∧
      (∀ p ∈ l, p.2 ≤ (pyFold b l).2) ∧
      (pyFold b l = b ∨
        ∃ i, ∃ hi : i < l.length,
          l.get ⟨i, hi⟩ = pyFold b l ∧ b.2 < (pyFold b l).2 ∧
          ∀ j, ∀ hj : j < i, (l.get ⟨j, lt_trans hj hi⟩).2 < (pyFold b l).2) := by
  induction l with
  | nil =>
    intro b
    exact ⟨le_refl _, by simp, Or.inl rfl⟩
  | cons p rest ih =>
    intro b
    have hfold : pyFold b (p :: rest) = pyFold (if p.2 > b.2 then p else b) rest := by
      simp [pyFold]
    set b1 : String × ℚ := if p.2 > b.2 then p else b with hb1
    obtain ⟨h1, h2, h3⟩ := ih b1
    have hbb1 : b.2 ≤ b1.2 := by
      rw [hb1]
      by_cases hp : p.2 > b.2
      · simp [hp]; exact le_of_lt hp
      · simp [hp]
    have hpb1 : p.2 ≤ b1.2 := by
      rw [hb1]
      by_cases hp : p.2 > b.2
      · simp [hp]
      · simp [hp]; exact le_of_not_lt hp
    refine ⟨?_, ?_, ?_⟩
    · rw [hfold]; exact le_trans hbb1 h1
    · rw [hfold]
      intro x hx
      rcases List.mem_cons.mp hx with hx | hx
      · subst hx; exact le_trans hpb1 h1
      · exact h2 x hx
    · rw [hfold]
      rcases h3 with heq | ⟨i, hi, hget, hlt, hprev⟩
      · rw [heq, hb1]
        by_cases hp : p.2 > b.2
        · right
          refine ⟨0, by simp, ?_, ?_, ?_⟩
          · simp [hp]
          · simp [hp]
          · intro j hj; omega
        · left; simp [hp]
      · right
        refine ⟨i + 1, by simpa using Nat.succ_lt_succ hi, ?_, ?_, ?_⟩
        · simpa using hget
        · exact lt_of_le_of_lt hbb1 hlt
        · intro j hj
          match j with
          | 0 =>
            simpa using lt_of_le_of_lt hpb1 hlt
          | Nat.succ j1 =>
            have hj1 : j1 < i := by omega
            simpa using hprev j1 hj1

theorem pythonMax_spec (row : Row) (hne : row ≠ []) :
    ∃ a v, pythonMax row = some a ∧
      ∃ i, ∃ hi : i < row.length,
        row.get ⟨i, hi⟩ = (a, v) ∧
        (∀ p ∈ row, p.2 ≤ v) ∧
        ∀ j, ∀ hj : j < i, (row.get ⟨j, lt_trans hj hi⟩).2 < v := by
  match row with
  | [] => exact absurd rfl hne
  | p :: rest =>
    obtain ⟨h1, h2, h3⟩ := pyFold_spec rest p
    refine ⟨(pyFold p rest).1, (pyFold p rest).2, by simp [pythonMax], ?_⟩
    rcases h3 with heq | ⟨i, hi, hget, hlt, hprev⟩
    · refine ⟨0, by simp, ?_, ?_, ?_⟩
      · simp [heq]
      · intro x hx
        rcases List.mem_cons.mp hx with hx | hx
        · subst hx; rw [heq]
        · exact h2 x hx
      · intro j hj; omega
    · refine ⟨i + 1, by simpa using Nat.succ_lt_succ hi, ?_, ?_, ?_⟩
      · simpa using hget
      · intro x hx
        rcases List.mem_cons.mp hx with hx | hx
        · subst hx; exact h1
        · exact h2 x hx
      · intro j hj
        match j with
        | 0 => simpa using hlt
        | Nat.succ j1 =>
          have hj1 : j1 < i := by omega
          simpa using hprev j1 hj1

/-! ## Further helper lemmas -/

theorem dictGet_singleton {α : Type} (a : String) (v : α) :
    dictGet a [(a, v)] = some v := by
  simp [dictGet]

theorem learnAux_step_zero (lr df : ℚ) (q : QTable) (reward : ℚ) (s m : String)
    (r : ℚ) (rest : List (String × String × ℚ)) (row : Row)
    (hs : dictGet s q = some row) (hm : dictGet m row = some 0) :
    learnAux lr df q reward ((s, m, r) :: rest) =
      learnAux lr df (dictInsert s (dictInsert m (lr * (r + reward)) row) q)
        (reward * df) rest := by
  rw [learnAux_step_present lr df q reward s m r rest row 0 hs hm]
  have e : (0 : ℚ) + lr * ((r + reward) - 0) = lr * (r + reward) := by ring
  rw [e]

theorem chooseMove_snd_absent (q : QTable) (fen : String) (legal : List String)
    (explore : Bool) (randIdx : Nat) (h : dictGet fen q = none) :
    (chooseMove q fen legal explore randIdx).2 = q ++ [(fen, buildRow legal)] := by
  have hc : dictContains fen q = false := by simp [dictContains, h]
  simp [chooseMove, hc, dictInsert_absent fen (buildRow legal) q h]

theorem chooseMove_snd_present (q : QTable) (fen : String) (legal : List String)
    (explore : Bool) (randIdx : Nat) (row : Row) (h : dictGet fen q = some row) :
    (chooseMove q fen legal explore randIdx).2 = q := by
  have hc : dictContains fen q = true := by simp [dictContains, h]
  simp [chooseMove, hc]

theorem chooseMove_greedy (q : QTable) (fen : String) (legal : List String)
    (randIdx : Nat) (row : Row) (h : dictGet fen q = some row) :
    chooseMove q fen legal false randIdx =
      ((match pythonMax row with
        | none => Except.error ()
        | some a => Except.ok a), q) := by
  have hc : dictContains fen q = true := by simp [dictContains, h]
  simp [chooseMove, hc, h]

/-! ## Claim theorems: action selection -/

/-- C6: in `choose_move`, a fingerprint absent from the table gets a row whose
key set is exactly the legal actions, all mapped to `0.0`; a fingerprint
already present leaves the table (hence the existing row's keys and values)
unchanged, whatever legal-action list is passed. -/
theorem chooseMove_row_init (q : QTable) (fen : String) (legal : List String)
    (explore : Bool) (randIdx : Nat) (_hlegal : legal ≠ []) :
    (dictGet fen q = none →
      (chooseMove q fen legal explore randIdx).2 = q ++ [(fen, buildRow legal)] ∧
      ∀ a, dictGet a (buildRow legal) = if a ∈ legal then some 0 else none) ∧
    ∀ row, dictGet fen q = some row →
      (chooseMove q fen legal explore randIdx).2 = q := by
  refine ⟨fun h => ⟨chooseMove_snd_absent q fen legal explore randIdx h,
    fun a => dictGet_buildRow legal a⟩, fun row h => chooseMove_snd_present q fen legal explore randIdx row h⟩

/-- Witness for C6 at concrete inputs: a fresh fingerprint gets exactly the
legal row, and a second call on a present fingerprint changes nothing. -/
theorem chooseMove_row_init_witness :
    (chooseMove [] "f" ["a", "b"] false 0).2 = [("f", [("a", (0 : ℚ)), ("b", 0)])] ∧
    (chooseMove [("f", [("a", (5 : ℚ))])] "f" ["b"] false 0).2 = [("f", [("a", (5 : ℚ))])] := by
  constructor
  · exact ((chooseMove_row_init [] "f" ["a", "b"] false 0 (by decide)).1 rfl).1
  · exact (chooseMove_row_init [("f", [("a", (5 : ℚ))])] "f" ["b"] false 0 (by decide)).2
      [("a", (5 : ℚ))] rfl

/-- C7: on the greedy branch, `choose_move` returns the key of the first
entry, in insertion order, whose value is maximal in the current
fingerprint's row, independently of the random draw — hence repeated greedy
calls on a fixed row return the same action. -/
theorem chooseMove_greedy_tiebreak (q : QTable) (fen : String) (legal : List String)
    (row : Row) (hrow : dictGet fen q = some row) (hne : row ≠ []) :
    ∃ a v, (∀ j : Nat, (chooseMove q fen legal false j).1 = Except.ok a) ∧
      ∃ i, ∃ hi : i < row.length,
        row.get ⟨i, hi⟩ = (a, v) ∧
        (∀ p ∈ row, p.2 ≤ v) ∧
        ∀ j, ∀ hj : j < i, (row.get ⟨j, lt_trans hj hi⟩).2 < v := by
  obtain ⟨a, v, hmax, i, hi, hget, hall, hprev⟩ := pythonMax_spec row hne
  refine ⟨a, v, ?_, i, hi, hget, hall, hprev⟩
  intro j
  rw [chooseMove_greedy q fen legal j row hrow]
  simp [hmax]

/-- Witness for C7: a row with two actions tied at `0.3` deterministically
yields the first inserted one. -/
theorem chooseMove_greedy_tiebreak_witness :
    (chooseMove [("f", [("a", (3 : ℚ)/10), ("b", 3/10)])] "f" ["a", "b"] false 0).1 =
      (chooseMove [("f", [("a", (3 : ℚ)/10), ("b", 3/10)])] "f" ["a", "b"] false 7).1 ∧
    (chooseMove [("f", [("a", (3 : ℚ)/10), ("b", 3/10)])] "f" ["a", "b"] false 0).1 =
      Except.ok "a" := by
  obtain ⟨a, v, hdet, _⟩ :=
    chooseMove_greedy_tiebreak [("f", [("a", (3 : ℚ)/10), ("b", 3/10)])] "f" ["a", "b"]
      [("a", (3 : ℚ)/10), ("b", 3/10)] rfl (by decide)
  refine ⟨?_, ?_⟩
  · rw [hdet 0, hdet 7]
  · rw [chooseMove_greedy [("f", [("a", (3 : ℚ)/10), ("b", 3/10)])] "f" ["a", "b"] 0
      [("a", (3 : ℚ)/10), ("b", 3/10)] rfl]
    have hirr : ¬ ((3 : ℚ)/10 > (3 : ℚ)/10) := lt_irrefl _
    simp [pythonMax, pyFold, hirr]

/-- C10: `choose_move` initializes the row before the exploration coin is
drawn: on an absent fingerprint the full legal row (each legal action mapped
to `0.0`) is appended for either value of the coin, and nothing else in the
table changes. -/
theorem chooseMove_init_precedes_coin (q : QTable) (fen : String) (legal : List String)
    (explore : Bool) (randIdx : Nat) (h : dictGet fen q = none) :
    (chooseMove q fen legal explore randIdx).2 = q ++ [(fen, buildRow legal)] ∧
    ∀ a, a ∈ legal → dictGet a (buildRow legal) = some 0 := by
  refine ⟨chooseMove_snd_absent q fen legal explore randIdx h, fun a ha => ?_⟩
  rw [dictGet_buildRow]
  simp [ha]

/-- Witness for C10: the row appears even when the exploration branch fires. -/
theorem chooseMove_init_precedes_coin_witness :
    (chooseMove [] "f" ["a", "b"] true 3).2 = [("f", [("a", (0 : ℚ)), ("b", 0)])] ∧
    dictGet "a" (buildRow ["a", "b"]) = some 0 := by
  have h := chooseMove_init_precedes_coin [] "f" ["a", "b"] true 3 rfl
  exact ⟨h.1, h.2 "a" (by decide)⟩

/-! ## Claim theorems: credit assignment -/

/-- C8: `learn` on an empty trajectory performs zero iterations: it succeeds
and returns the table unchanged, for every table and terminal reward. -/
theorem learn_empty_trajectory (lr df : ℚ) (q : QTable) (R : ℚ) :
    learn lr df q [] R = Except.ok q := rfl

/-- C1 counterexample: with the table `{"s": {"a": 0.0}}` and a trajectory
entry whose action `"b"` is missing from the existing row of `"s"`, the
update does not insert `"b" -> 0.0`; reading `q_table["s"]["b"]` raises a
`KeyError`, so `learn` fails instead of proceeding. -/
theorem learn_missing_action_fails :
    learn learning_rate discount_factor [("s", [("a", (0 : ℚ))])]
      [("s", "b", (0 : ℚ))] 0 = Except.error () := by
  have h := learnAux_step_missing learning_rate discount_factor
    [("s", [("a", (0 : ℚ))])] 0 "s" "b" 0 [] [("a", (0 : ℚ))] rfl rfl
  simpa [learn] using h

/-- C1 (amended): in each `learn` iteration, if the fingerprint is absent a
row containing only `action -> 0.0` is created and the update proceeds on it;
if the fingerprint is present and its row contains the action, the current
value is read and updated; but if the fingerprint is present and the action
is missing from its row, no `action -> 0.0` is inserted — the update raises
a `KeyError`. Stated for a one-entry trajectory, which exercises exactly one
iteration. -/
theorem learn_single_step_cases (lr df : ℚ) (q : QTable) (s a : String) (r R : ℚ) :
    (dictGet s q = none →
      learn lr df q [(s, a, r)] R =
        Except.ok (dictInsert s [(a, lr * (r + R))] q)) ∧
    (∀ row old, dictGet s q = some row → dictGet a row = some old →
      learn lr df q [(s, a, r)] R =
        Except.ok (dictInsert s (dictInsert a (old + lr * ((r + R) - old)) row) q)) ∧
    (∀ row, dictGet s q = some row → dictGet a row = none →
      learn lr df q [(s, a, r)] R = Except.error ()) := by
  have hrev : learn lr df q [(s, a, r)] R = learnAux lr df q R [(s, a, r)] := by
    simp [learn]
  refine ⟨?_, ?_, ?_⟩
  · intro hs
    rw [hrev, learnAux_step_absent lr df q R s a r [] hs]
    rfl
  · intro row old hs ha
    rw [hrev, learnAux_step_present lr df q R s a r [] row old hs ha]
    rfl
  · intro row hs ha
    rw [hrev, learnAux_step_missing lr df q R s a r [] row hs ha]

/-- Witness for C1 (amended) on the absent-fingerprint branch. -/
theorem learn_single_step_cases_witness :
    learn learning_rate discount_factor [] [("s", "a", (1 : ℚ))] 1 =
      Except.ok [("s", [("a", learning_rate * (1 + 1))])] :=
  (learn_single_step_cases learning_rate discount_factor [] "s" "a" 1 1).1 rfl

/-- C2 counterexample: a two-step trajectory with distinct (state, action)
pairs sharing one state, from the empty table: the first (last-in-time)
iteration creates the row `{"b": ...}` for `"s"`, and the second iteration
then hits a missing action `"a"` in that row and raises, so no value is
stored for `("s", "a")`. -/
theorem learn_two_step_same_state_fails :
    learn learning_rate discount_factor []
      [("s", "a", (0 : ℚ)), ("s", "b", (0 : ℚ))] 1 = Except.error () := by
  have h1 := learnAux_step_absent learning_rate discount_factor [] 1 "s" "b" 0
    [("s", "a", (0 : ℚ))] rfl
  have h2 := learnAux_step_missing learning_rate discount_factor
    [("s", [("b", learning_rate * (0 + 1))])] (1 * discount_factor) "s" "a" 0 []
    [("b", learning_rate * (0 + 1))] (dictGet_insert_self "s" _ []) rfl
  have hrev : learn learning_rate discount_factor []
      [("s", "a", (0 : ℚ)), ("s", "b", (0 : ℚ))] 1 =
        learnAux learning_rate discount_factor [] 1
          [("s", "b", (0 : ℚ)), ("s", "a", (0 : ℚ))] := by
    simp [learn]
  rw [hrev, h1]
  exact h2

/-- C2 (amended): for a two-step trajectory over two distinct states, each
either absent from the table or holding value `0.0` for its taken action,
`learn` succeeds; it stores `α·(r2+R)` for `(s2,a2)` and `α·(r1+γ·R)` for
`(s1,a1)` — each iteration computing
`new = old + α·((step_reward + running_reward) − old)` with the running
reward discounted after each step, from last entry to first. (The original
claim, quantified over distinct (state, action) pairs, fails when the two
entries share a state: see the counterexample.) -/
theorem learn_two_step_values (lr df : ℚ) (q : QTable) (s1 a1 s2 a2 : String)
    (r1 r2 R : ℚ) (hss : s1 ≠ s2)
    (h1 : dictGet s1 q = none ∨ ∃ row, dictGet s1 q = some row ∧ dictGet a1 row = some 0)
    (h2 : dictGet s2 q = none ∨ ∃ row, dictGet s2 q = some row ∧ dictGet a2 row = some 0) :
    learn lr df q [(s1, a1, r1), (s2, a2, r2)] R ≠ Except.error () ∧
    tableValue (learn lr df q [(s1, a1, r1), (s2, a2, r2)] R) s2 a2 =
      some (lr * (r2 + R)) ∧
    tableValue (learn lr df q [(s1, a1, r1), (s2, a2, r2)] R) s1 a1 =
      some (lr * (r1 + df * R)) := by
  have hs2s1 : s2 ≠ s1 := fun e => hss e.symm
  have hrev : learn lr df q [(s1, a1, r1), (s2, a2, r2)] R =
      learnAux lr df q R [(s2, a2, r2), (s1, a1, r1)] := by
    simp [learn]
  have ecomm : lr * (r1 + R * df) = lr * (r1 + df * R) := by ring
  rcases h2 with hs2 | ⟨row2, hs2, ha2⟩
  · -- s2 absent: its row becomes the singleton {a2: lr*(r2+R)}
    have hstep1 := learnAux_step_absent lr df q R s2 a2 r2 [(s1, a1, r1)] hs2
    have hT1s1 : dictGet s1 (dictInsert s2 [(a2, lr * (r2 + R))] q) = dictGet s1 q :=
      dictGet_insert_ne s2 s1 hs2s1 _ q
    have hT1s2 : dictGet s2 (dictInsert s2 [(a2, lr * (r2 + R))] q) =
        some [(a2, lr * (r2 + R))] := dictGet_insert_self s2 _ q
    rcases h1 with hs1 | ⟨row1, hs1, ha1⟩
    · have hstep2 := learnAux_step_absent lr df _ (R * df) s1 a1 r1 []
        (hT1s1.trans hs1)
      rw [hrev, hstep1, hstep2]
      refine ⟨by simp [learnAux_nil], ?_, ?_⟩
      · simp only [learnAux_nil, tableValue, dictGet_insert_ne s1 s2 hss, hT1s2,
          Option.some_bind, dictGet_singleton]
      · simp only [learnAux_nil, tableValue, dictGet_insert_self, Option.some_bind, ecomm,
          dictGet_singleton]
    · have hstep2 := learnAux_step_zero lr df _ (R * df) s1 a1 r1 [] row1
        (hT1s1.trans hs1) ha1
      rw [hrev, hstep1, hstep2]
      refine ⟨by simp [learnAux_nil], ?_, ?_⟩
      · simp only [learnAux_nil, tableValue, dictGet_insert_ne s1 s2 hss, hT1s2,
          Option.some_bind, dictGet_singleton]
      · simp only [learnAux_nil, tableValue, dictGet_insert_self, Option.some_bind, ecomm]
  · -- s2 present with a2 at 0: its row gets a2 overwritten to lr*(r2+R)
    have hstep1 := learnAux_step_zero lr df q R s2 a2 r2 [(s1, a1, r1)] row2 hs2 ha2
    have hT1s1 : dictGet s1 (dictInsert s2 (dictInsert a2 (lr * (r2 + R)) row2) q) =
        dictGet s1 q := dictGet_insert_ne s2 s1 hs2s1 _ q
    have hT1s2 : dictGet s2 (dictInsert s2 (dictInsert a2 (lr * (r2 + R)) row2) q) =
        some (dictInsert a2 (lr * (r2 + R)) row2) := dictGet_insert_self s2 _ q
    rcases h1 with hs1 | ⟨row1, hs1, ha1⟩
    · have hstep2 := learnAux_step_absent lr df _ (R * df) s1 a1 r1 []
        (hT1s1.trans hs1)
      rw [hrev, hstep1, hstep2]
      refine ⟨by simp [learnAux_nil], ?_, ?_⟩
      · simp only [learnAux_nil, tableValue, dictGet_insert_ne s1 s2 hss, hT1s2,
          Option.some_bind, dictGet_insert_self]
      · simp only [learnAux_nil, tableValue, dictGet_insert_self, Option.some_bind, ecomm,
          dictGet_singleton]
    · have hstep2 := learnAux_step_zero lr df _ (R * df) s1 a1 r1 [] row1
        (hT1s1.trans hs1) ha1
      rw [hrev, hstep1, hstep2]
      refine ⟨by simp [learnAux_nil], ?_, ?_⟩
      · simp only [learnAux_nil, tableValue, dictGet_insert_ne s1 s2 hss, hT1s2,
          Option.some_bind, dictGet_insert_self]
      · simp only [learnAux_nil, tableValue, dictGet_insert_self, Option.some_bind, ecomm]

/-- Witness for C2 (amended), at the spec's own concrete example:
`α=0.5, γ=0.9, r1=0.1, r2=-0.2, R=1`, empty starting table. -/
theorem learn_two_step_values_witness :
    tableValue (learn (1/2) (9/10) []
        [("s1", "a1", (1 : ℚ)/10), ("s2", "a2", -((1 : ℚ)/5))] 1) "s2" "a2" =
      some ((1 : ℚ)/2 * (-((1 : ℚ)/5) + 1)) ∧
    tableValue (learn (1/2) (9/10) []
        [("s1", "a1", (1 : ℚ)/10), ("s2", "a2", -((1 : ℚ)/5))] 1) "s1" "a1" =
      some ((1 : ℚ)/2 * ((1 : ℚ)/10 + (9 : ℚ)/10 * 1)) := by
  have h := learn_two_step_values (1/2) (9/10) [] "s1" "a1" "s2" "a2"
    ((1 : ℚ)/10) (-((1 : ℚ)/5)) 1 (by decide) (Or.inl rfl) (Or.inl rfl)
  exact ⟨h.2.1, h.2.2⟩

/-- C9: the terminal reward handed to `learn` is `+1.0` on result `"0-1"`
(a win for the learning side, black), `-1.0` on `"1-0"`, and `0.0` on every
other result string. -/
theorem finalReward_mapping :
    finalReward "0-1" = 1 ∧ finalReward "1-0" = -1 ∧
      ∀ result : String, result ≠ "0-1" → result ≠ "1-0" → finalReward result = 0 := by
  refine ⟨rfl, rfl, ?_⟩
  intro result h1 h2
  simp [finalReward, h1, h2]

/-- Witness for C9 at the draw result. -/
theorem finalReward_mapping_witness : finalReward "1/2-1/2" = 0 :=
  finalReward_mapping.2.2 "1/2-1/2" (by decide) (by decide)

/-! ## Claim theorems: persistence -/

/-- C3: saving any reachable table and loading it back yields exactly the
same table — same fingerprint keys, same per-row action keys, same values
(the result is the very same association list). -/
theorem save_load_roundtrip (T : QTable) (hT : Reachable T) (writable : String → Bool)
    (fs : FileSys) (filename : String) (q0 : QTable) (fs1 : FileSys)
    (hw : writable filename = true)
    (hsave : save_brain writable fs filename T = Except.ok fs1) :
    load_brain fs1 filename q0 = T := by
  have : Reachable T := hT
  rw [save_brain, hw, if_pos rfl] at hsave
  have hfs1 : fs1 = dictInsert filename (pickleDump T) fs :=
    (Except.ok.injEq _ _ ▸ hsave).symm
  rw [hfs1, load_brain, dictGet_insert_self]
  rfl

/-- Witness for C3: the empty table (reachable by construction) survives a
save/load round trip through the default brain file. -/
theorem save_load_roundtrip_witness :
    load_brain [("chess_brain_v2.pkl", Blob.table [])] "chess_brain_v2.pkl"
      [("x", [("y", (1 : ℚ))])] = [] :=
  save_load_roundtrip [] Reachable.init (fun _ => true) [] "chess_brain_v2.pkl"
    [("x", [("y", (1 : ℚ))])] [("chess_brain_v2.pkl", Blob.table [])] rfl rfl

/-- C4: whenever the persisted blob for the brain file fails to deserialize,
`load_brain` swallows the failure (it is a total function into tables, so no
error reaches the caller) and substitutes the empty table. -/
theorem load_brain_failure_swallowed (fs : FileSys) (filename : String)
    (q : QTable) (b : Blob) (hb : dictGet filename fs = some b)
    (hfail : pickleLoad b = Except.error ()) :
    load_brain fs filename q = [] := by
  rw [load_brain, hb]
  show (match pickleLoad b with
        | Except.ok t => t
        | Except.error _ => ([] : QTable)) = []
  rw [hfail]

/-- Witness for C4: a corrupt blob under the brain file name loads as the
empty table, whatever the in-memory table was. -/
theorem load_brain_failure_swallowed_witness :
    load_brain [("chess_brain_v2.pkl", Blob.corrupt)] "chess_brain_v2.pkl"
      [("s", [("a", (2 : ℚ))])] = [] :=
  load_brain_failure_swallowed [("chess_brain_v2.pkl", Blob.corrupt)]
    "chess_brain_v2.pkl" [("s", [("a", (2 : ℚ))])] Blob.corrupt rfl rfl

/-- C5: when the destination cannot be written, `save_brain` surfaces the
failure to the caller as the error itself — there is no handler in
`save_brain`, so nothing is swallowed. -/
theorem save_brain_write_failure_propagates (writable : String → Bool)
    (fs : FileSys) (filename : String) (q : QTable)
    (hw : writable filename = false) :
    save_brain writable fs filename q = Except.error () := by
  rw [save_brain, hw]
  simp

/-- Witness for C5 on a concrete unwritable destination. -/
theorem save_brain_write_failure_propagates_witness :
    save_brain (fun _ => false) [] "chess_brain_v2.pkl" [("s", [("a", (1 : ℚ))])] =
      Except.error () :=
  save_brain_write_failure_propagates (fun _ => false) [] "chess_brain_v2.pkl"
    [("s", [("a", (1 : ℚ))])] rfl

end ChessBot
